import Mathlib

/-!
Verification development for the danswer local-file connector
(`backend/danswer/connectors/file/connector.py`).

The Python module is shallowly embedded below.  Conventions:

* Python `datetime` values are abstracted as `Timestamp` (an integer UTC
  instant); `datetime.now(timezone.utc)` becomes an explicit `Timestamp`
  parameter supplied by the caller at the program point where `now` is called.
* `time_str_to_utc` (external, `cross_connector_utils.miscellaneous_utils`)
  is abstracted as a total parameter `parse : String → Timestamp`; its own
  failure on unparseable input simply propagates in the real code and is not
  needed by any property proved here.
* Python dicts of metadata are embedded extensionally as
  `String → Option MVal`; dict values occurring in this module are strings,
  lists of strings, or datetimes (`MVal`).
* Byte-level parsing done by external libraries (pypdf via `read_pdf_file`,
  docx2txt, python-pptx, openpyxl, the csv module's tokenizer, the email
  parser, BeautifulSoup) is abstracted by `FileContent`, which carries the
  structured data those libraries hand back to this module; the text-assembly
  code written in `_process_file` itself (slide headers, row joins,
  part filtering, `"\n\n"` joins, …) is embedded faithfully.
* A `none` result models an uncaught Python exception propagating out of the
  call (wrong password, malformed archive, ill-typed metadata value reaching
  a typed field, …).
-/

namespace Danswer

/-- An absolute UTC instant (abstraction of Python `datetime` values). -/
structure Timestamp where
  utc : Int
  deriving DecidableEq, Inhabited

/-- A value stored in a metadata bag: the value shapes this module reads
(strings, lists of display names, datetimes). -/
inductive MVal where
  | str (s : String)
  | strList (l : List String)
  | time (t : Timestamp)
  deriving DecidableEq, Inhabited

/-- A Python metadata dict, embedded extensionally. -/
abbrev Metadata : Type := String → Option MVal

/-- The empty dict `{}`. -/
def emptyMeta : Metadata := fun _ => none

/-- `danswer.connectors.models.BasicExpertInfo` (only the field this module
sets). -/
structure BasicExpertInfo where
  display_name : String
  deriving DecidableEq, Inhabited

/-- `danswer.connectors.models.Section` (link + text). -/
structure Section where
  link : Option String
  text : String
  deriving DecidableEq, Inhabited

/-- `danswer.connectors.models.Document`, restricted to the fields this
module sets.  `source` is the `DocumentSource.FILE` constant `"file"`. -/
structure Document where
  id : String
  sections : List Section
  source : String
  semantic_identifier : String
  doc_updated_at : Timestamp
  primary_owners : Option (List BasicExpertInfo)
  secondary_owners : Option (List BasicExpertInfo)
  metadata : Metadata
  deriving Inhabited

/-- The whitespace set of Python `str.strip()` (ASCII part). -/
def pyIsSpace (c : Char) : Bool :=
  c = ' ' || c = '\t' || c = '\n' || c = '\r' || c = '\x0B' || c = '\x0C'

/-- `str.strip()` on the character list: drop leading and trailing
whitespace. -/
def stripChars (l : List Char) : List Char :=
  ((l.dropWhile pyIsSpace).reverse.dropWhile pyIsSpace).reverse

/-- Python `str.strip()`. -/
def pyStrip (s : String) : String := ⟨stripChars s.data⟩

/-- Is the first list a prefix of the second (kernel-computable)? -/
def listIsPref : List Char → List Char → Bool
  | [], _ => true
  | _ :: _, [] => false
  | a :: as, b :: bs => a = b && listIsPref as bs

/-- Python `s.startswith(pre)`. -/
def strStartsWith (s pre : String) : Bool := listIsPref pre.data s.data

/-- Python `s.endswith(suf)`. -/
def strEndsWith (s suf : String) : Bool := listIsPref suf.data.reverse s.data.reverse

/-- Characters strictly after the last `'.'`, if any dot occurs. -/
def afterLastDot : List Char → Option (List Char)
  | [] => none
  | c :: rest =>
    match afterLastDot rest with
    | some e => some e
    | none => if c = '.' then some rest else none

/-- Modelled from the spec: `get_file_ext` lives in
`danswer.connectors.file.utils`, which is not part of the sources; spec §4.1
says the classifier is pure string-suffix extraction, lower-cased. -/
def get_file_ext (file_name : String) : String :=
  match afterLastDot file_name.data with
  | some ext => "." ++ ⟨ext.map Char.toLower⟩
  | none => ""

/-- Modelled from the spec: `check_file_ext_is_valid` lives in
`danswer.connectors.file.utils`, which is not part of the sources; spec §4.1
gives the fixed allow-list (`.zip` is handled upstream, not here). -/
def check_file_ext_is_valid (ext : String) : Bool :=
  decide (ext ∈ [".txt", ".md", ".mdx", ".pdf", ".docx", ".pptx", ".xlsx",
                 ".csv", ".eml", ".epub"])

/-- `os.path.basename`: everything after the last `'/'`. -/
def basename (s : String) : String :=
  ⟨(s.data.reverse.takeWhile (fun c => !(c = '/'))).reverse⟩

/-- `os.path.dirname`: everything before the last `'/'` (empty when there is
no slash). -/
def dirname (s : String) : String :=
  ⟨((s.data.reverse.dropWhile (fun c => !(c = '/'))).drop 1).reverse⟩

/-- `os.path.join` for the relative inner names produced by zip expansion. -/
def joinPath (d f : String) : String :=
  if d = "" then f
  else if d.data.getLast? = some '/' then d ++ f
  else d ++ "/" ++ f

/-- The structured data the external parsing libraries hand back to
`_process_file` for one file, one constructor per dispatch branch:

* `pdf`: the behaviour of `read_pdf_file` as a function of the optional
  password (`none` output = `DecryptionError` or parse failure);
* `docx`: the text returned by `docx2txt.process`;
* `pptx`: the slides, each a list of shapes; a shape is `some t` when it has
  a `text` attribute (value `t`) and `none` otherwise;
* `xlsx`: the worksheets, each a list of rows, each row the `str(...)` forms
  of its cell values as produced by `map(str, row)`;
* `csv`: the rows handed back by `csv.reader`;
* `eml`: the parts visited by `message.walk()`, each
  `(get_content_type(), get_payload())`;
* `epub`: the archive entries, each `(filename, soup.get_text())`;
* `generic`: the `(text, metadata)` pair returned by the external
  `read_file` for plain-text formats. -/
inductive FileContent where
  | pdf (reader : Option String → Option String)
  | docx (text : String)
  | pptx (slides : List (List (Option String)))
  | xlsx (sheets : List (List (List String)))
  | csv (rows : List (List String))
  | eml (parts : List (String × String))
  | epub (entries : List (String × String))
  | generic (text : String) (meta : Metadata)

/-- The inner shape loop of the `.pptx` branch: each shape that has a `text`
attribute contributes its text followed by `"\n"`. -/
def shapesText : List (Option String) → String
  | [] => ""
  | some t :: rest => t ++ "\n" ++ shapesText rest
  | none :: rest => shapesText rest

/-- The `.pptx` slide loop: 1-indexed `"\nSlide N:\n"` header plus the shape
texts, one string per slide. -/
def pptxSlides (slides : List (List (Option String))) : List String :=
  slides.enum.map fun p => "\nSlide " ++ toString (p.1 + 1) ++ ":\n" ++ shapesText p.2

/-- The `.eml` part loop: keep the payload of every part whose content type
starts with `"text/plain"` (the code uses `startswith`). -/
def emlParts : List (String × String) → List String
  | [] => []
  | (ct, payload) :: rest =>
    if strStartsWith ct "text/plain" then payload :: emlParts rest else emlParts rest

/-- The `.epub` entry loop: the extracted text of every entry whose name ends
in `.xhtml` or `.html`. -/
def epubParts : List (String × String) → List String
  | [] => []
  | (nm, txt) :: rest =>
    if strEndsWith nm ".xhtml" || strEndsWith nm ".html" then txt :: epubParts rest
    else epubParts rest

/-- The dispatch-by-extension block of `_process_file`: produce
`(file_content_raw, file_metadata)`.  Only the generic `read_file` branch
produces extractor metadata; each specialized branch leaves it `{}`.
`none` models the external parser raising on bytes that do not match the
extension (or `read_pdf_file` failing to decrypt). -/
def extractByExt (ext : String) (pdf_pass : Option String) (c : FileContent) :
    Option (String × Metadata) :=
  if ext = ".pdf" then
    match c with
    | .pdf reader => (reader pdf_pass).map (fun t => (t, emptyMeta))
    | _ => none
  else if ext = ".docx" then
    match c with
    | .docx t => some (t, emptyMeta)
    | _ => none
  else if ext = ".pptx" then
    match c with
    | .pptx slides => some (String.intercalate "\n\n" (pptxSlides slides), emptyMeta)
    | _ => none
  else if ext = ".xlsx" then
    match c with
    | .xlsx sheets =>
      some (String.intercalate "\n\n"
        (sheets.map fun sh => String.intercalate "\n" (sh.map (String.intercalate ","))),
        emptyMeta)
    | _ => none
  else if ext = ".csv" then
    match c with
    | .csv rows =>
      some (String.intercalate "\n" (rows.map (String.intercalate ",")), emptyMeta)
    | _ => none
  else if ext = ".eml" then
    match c with
    | .eml parts => some (String.intercalate "\n\n" (emlParts parts), emptyMeta)
    | _ => none
  else if ext = ".epub" then
    match c with
    | .epub entries => some (String.intercalate "\n\n" (epubParts entries), emptyMeta)
    | _ => none
  else
    match c with
    | .generic t m => some (t, m)
    | _ => none

/-- `{**m, **fm}`: keys of `fm` win on collision. -/
def dictMerge (m fm : Metadata) : Metadata :=
  fun k =>
    match fm k with
    | some v => some v
    | none => m k

/-- `all_metadata = {**metadata, **file_metadata} if metadata else file_metadata`.
(The Python empty-dict falsy branch coincides extensionally with merging an
empty dict, so only the `None` case needs its own arm.) -/
def allMetadataOf (metadata : Option Metadata) (file_metadata : Metadata) : Metadata :=
  match metadata with
  | some m => dictMerge m file_metadata
  | none => file_metadata

/-- The reserved keys excluded from the residual tag dict. -/
def reservedKeys : List String :=
  ["time_updated", "doc_updated_at", "link", "primary_owners",
   "secondary_owners", "filename", "file_display_name"]

/-- The `metadata_tags` dict comprehension: all non-reserved keys. -/
def metadataTags (d : Metadata) : Metadata :=
  fun k => if k ∈ reservedKeys then none else d k

/-- `time_updated = all_metadata.get("time_updated", now)` followed by the
`isinstance(time_updated, str)` coercion through `time_str_to_utc`. -/
def timeUpdatedVal (parse : String → Timestamp) (d : Metadata) (now : Timestamp) : MVal :=
  match d "time_updated" with
  | none => .time now
  | some (.str s) => .time (parse s)
  | some v => v

/-- Require a datetime where the `Document.doc_updated_at` field needs one
(`none` = pydantic validation error on an ill-typed value). -/
def asTime : MVal → Option Timestamp
  | .time t => some t
  | _ => none

/-- `final_time_updated = time_str_to_utc(dt_str) if dt_str else time_updated`:
Python truthiness on `dt_str`, so the empty string and the empty list fall
back to `time_updated`; a truthy non-string reaching `time_str_to_utc`
raises (`none`). -/
def finalTimeUpdated (parse : String → Timestamp) (d : Metadata) (now : Timestamp) :
    Option Timestamp :=
  match d "doc_updated_at" with
  | some (.str s) =>
    if s = "" then asTime (timeUpdatedVal parse d now) else some (parse s)
  | some (.strList l) =>
    if l = [] then asTime (timeUpdatedVal parse d now) else none
  | some (.time _) => none
  | none => asTime (timeUpdatedVal parse d now)

/-- `file_display_name_override or os.path.basename(file_name)`: Python
truthiness on the override; a truthy non-string reaching the `str`-typed
field raises (`none`). -/
def semanticId (d : Metadata) (file_name : String) : Option String :=
  match d "file_display_name" with
  | none => some (basename file_name)
  | some (.str s) => if s = "" then some (basename file_name) else some s
  | some (.strList l) => if l = [] then some (basename file_name) else none
  | some (.time _) => none

/-- `[BasicExpertInfo(display_name=name) for name in names] if names else None`:
Python truthiness; iterating a (truthy) string yields its characters;
iterating a datetime raises (`none` outer layer = exception). -/
def ownersOf : Option MVal → Option (Option (List BasicExpertInfo))
  | none => some none
  | some (.str s) =>
    if s = "" then some none
    else some (some (s.data.map fun ch => ⟨⟨[ch]⟩⟩))
  | some (.strList l) =>
    if l = [] then some none
    else some (some (l.map fun n => ⟨n⟩))
  | some (.time _) => none

/-- `all_metadata.get("link")` flowing into the `str | None` field of
`Section` (`none` outer layer = validation error on an ill-typed value). -/
def linkOf : Option MVal → Option (Option String)
  | none => some none
  | some (.str s) => some (some s)
  | some (.strList _) => none
  | some (.time _) => none

/-- The tail of `_process_file` after extraction: reconcile metadata and
build the single `Document`. -/
def mkDocument (parse : String → Timestamp) (file_name raw : String)
    (all_metadata : Metadata) (now : Timestamp) : Option Document :=
  (finalTimeUpdated parse all_metadata now).bind fun fin =>
  (ownersOf (all_metadata "primary_owners")).bind fun pOwners =>
  (ownersOf (all_metadata "secondary_owners")).bind fun sOwners =>
  (semanticId all_metadata file_name).bind fun sem =>
  (linkOf (all_metadata "link")).bind fun lnk =>
  some
    { id := "FILE_CONNECTOR__" ++ file_name
      sections := [⟨lnk, pyStrip raw⟩]
      source := "file"
      semantic_identifier := sem
      doc_updated_at := fin
      primary_owners := pOwners
      secondary_owners := sOwners
      metadata := metadataTags all_metadata }

/-- `_process_file`: validity gate, dispatch-by-extension extraction, then
metadata reconciliation and document construction.  `now` is the instant
`datetime.now(timezone.utc)` would return inside this call. -/
def _process_file (parse : String → Timestamp) (file_name : String)
    (content : FileContent) (metadata : Option Metadata) (now : Timestamp)
    (pdf_pass : Option String) : Option (List Document) :=
  let extension := get_file_ext file_name
  if !check_file_ext_is_valid extension then some []
  else
    match extractByExt extension pdf_pass content with
    | none => none
    | some (raw, file_metadata) =>
      (mkDocument parse file_name raw (allMetadataOf metadata file_metadata) now).map
        fun d => [d]

/-- One entry of a zip archive as handed back by the external
`load_files_from_zip` (directory entries already excluded): archive-relative
name, stored bytes (pre-parsed per format, like `FileContent` above), and
the metadata record of the packaged descriptor (`{}` when absent). -/
structure ZipEntry where
  name : String
  content : FileContent
  meta : Metadata

/-- The blob the file store returns for one location: either plain file
bytes or a zip archive. -/
inductive Blob where
  | content (c : FileContent)
  | archive (entries : List ZipEntry)

/-- One configured file location: its name and the stored blob. -/
structure Location where
  name : String
  blob : Blob

/-- `_read_files_and_metadata`: zip expansion (joining inner names onto the
location's directory), pass-through for supported extensions, and the
log-and-skip branch for anything else.  `none` models the external parser
raising on a blob that does not match the extension. -/
def _read_files_and_metadata (loc : Location) :
    Option (List (String × FileContent × Metadata)) :=
  let extension := get_file_ext loc.name
  if extension = ".zip" then
    match loc.blob with
    | .archive es =>
      some (es.map fun e => (joinPath (dirname loc.name) e.name, e.content, e.meta))
    | .content _ => none
  else if extension ∈ [".txt", ".md", ".mdx", ".pdf", ".docx", ".pptx",
                       ".xlsx", ".csv", ".eml", ".epub"] then
    match loc.blob with
    | .content c => some [(loc.name, c, emptyMeta)]
    | .archive _ => none
  else some []

/-- `metadata["time_updated"] = metadata.get("time_updated", current_datetime)`
performed by `load_from_state` before each `_process_file` call. -/
def injectTime (m : Metadata) (current : Timestamp) : Metadata :=
  fun k =>
    if k = "time_updated" then
      match m "time_updated" with
      | some v => some v
      | none => some (.time current)
    else m k

/-- The `_process_file` call `load_from_state` makes for one yielded entry:
`current` is the `current_datetime` captured at the top of the location loop,
`t` the instant a `datetime.now` call inside `_process_file` would return. -/
def processLocEntry (parse : String → Timestamp) (pdf_pass : Option String)
    (current t : Timestamp) (e : String × FileContent × Metadata) :
    Option (List Document) :=
  _process_file parse e.1 e.2.1 (some (injectTime e.2.2 current)) t pdf_pass

/-- The documents of each entry of one location, in order; `k` numbers the
entries so that each gets its own hypothetical in-call instant. -/
def entryDocLists (parse : String → Timestamp) (pdf_pass : Option String)
    (current : Timestamp) (entryClock : Nat → Timestamp) (k : Nat) :
    List (String × FileContent × Metadata) → Option (List (List Document))
  | [] => some []
  | e :: es =>
    (processLocEntry parse pdf_pass current (entryClock k) e).bind fun ds =>
    (entryDocLists parse pdf_pass current entryClock (k + 1) es).bind fun rest =>
    some (ds :: rest)

/-- All per-entry document lists of a run, locations in order; `locClock i`
is the `current_datetime` captured when location `i` begins. -/
def runEntryLists (parse : String → Timestamp) (pdf_pass : Option String)
    (locClock entryClock : Nat → Timestamp) :
    List Location → Nat → Nat → Option (List (List Document))
  | [], _, _ => some []
  | loc :: rest, i, k =>
    (_read_files_and_metadata loc).bind fun es =>
    (entryDocLists parse pdf_pass (locClock i) entryClock k es).bind fun dss =>
    (runEntryLists parse pdf_pass locClock entryClock rest (i + 1) (k + es.length)).bind
      fun more => some (dss ++ more)

/-- The batching loop of `load_from_state`: extend the in-progress list by
each entry's documents, yield whenever `batch_size <= len(documents)`, and
yield any non-empty remainder at the end. -/
def emitAll (batch_size : Nat) : List Document → List (List Document) → List (List Document)
  | pending, [] => if pending.isEmpty then [] else [pending]
  | pending, ds :: rest =>
    let p := pending ++ ds
    if batch_size ≤ p.length then p :: emitAll batch_size [] rest
    else emitAll batch_size p rest

/-- `LocalFileConnector.load_from_state`: the whole generator, returning the
list of yielded batches (`none` when the run aborts with an uncaught
exception). -/
def load_from_state (parse : String → Timestamp) (pdf_pass : Option String)
    (locClock entryClock : Nat → Timestamp) (file_locations : List Location)
    (batch_size : Nat) : Option (List (List Document)) :=
  (runEntryLists parse pdf_pass locClock entryClock file_locations 0 0).map
    fun dss => emitAll batch_size [] dss

/-! ### Concrete inputs used by witnesses and counterexamples -/

/-- A concrete stand-in for the external timestamp parser: the parsed
instant of a string is its length. -/
def par0 : String → Timestamp := fun s => ⟨(s.data.length : Int)⟩

/-- A constant clock. -/
def clk0 : Nat → Timestamp := fun _ => ⟨0⟩

/-- Caller metadata with an empty-string `doc_updated_at` and an explicit
`time_updated`. -/
def mdC1 : Metadata := fun k =>
  if k = "doc_updated_at" then some (.str "") else
  if k = "time_updated" then some (.time ⟨5⟩) else none

/-- Caller metadata with a nonempty `doc_updated_at` and an explicit
`time_updated`. -/
def mdC1w : Metadata := fun k =>
  if k = "doc_updated_at" then some (.str "2020") else
  if k = "time_updated" then some (.time ⟨5⟩) else none

def rC1 : List Document :=
  (_process_file par0 "a.txt" (.generic "x" emptyMeta) (some mdC1w) ⟨9⟩ none).getD []

def docC1 : Document := rC1.headD default

/-- Caller metadata defining the key `"color"`. -/
def mdC2 : Metadata := fun k => if k = "color" then some (.str "red") else none

/-- Extractor metadata defining the same key `"color"`. -/
def fmC2 : Metadata := fun k => if k = "color" then some (.str "blue") else none

def rC2 : List Document :=
  (_process_file par0 "a.txt" (.generic "x" fmC2) (some mdC2) ⟨0⟩ none).getD []

def docC2 : Document := rC2.headD default

def locA : Location := ⟨"a.txt", .content (.generic "hi" emptyMeta)⟩

def locB : Location := ⟨"b.md", .content (.generic "yo" emptyMeta)⟩

def out3 : List (List Document) :=
  (load_from_state par0 none clk0 clk0 [locA, locB] 1).getD []

def rC5 : List Document :=
  (_process_file par0 "a.txt" (.generic "x" emptyMeta) none ⟨0⟩ none).getD []

def docC5 : Document := rC5.headD default

def rC5b : List Document :=
  (_process_file (fun _ => ⟨42⟩) "a.txt" (.generic "other bytes" fmC2) (some mdC2) ⟨3⟩
    (some "pw")).getD []

def docC5b : Document := rC5b.headD default

def rC6 : List Document :=
  (_process_file par0 "a.txt" (.generic "  hi \n" emptyMeta) none ⟨0⟩ none).getD []

def docC6 : Document := rC6.headD default

def secC6 : Section := docC6.sections.headD default

/-- Walk order of a three-part mail message. -/
def partsC7 : List (String × String) :=
  [("text/plain", "P1"), ("text/html", "H"), ("text/plain", "P2")]

/-- Caller metadata supplying `primary_owners` as the empty list. -/
def mdC8 : Metadata := fun k => if k = "primary_owners" then some (.strList []) else none

/-- Caller metadata supplying two primary owners. -/
def mdC8w : Metadata := fun k =>
  if k = "primary_owners" then some (.strList ["ann", "bo"]) else none

def rC8 : List Document :=
  (_process_file par0 "a.txt" (.generic "x" emptyMeta) (some mdC8w) ⟨0⟩ none).getD []

def docC8 : Document := rC8.headD default

def rC8e : List Document :=
  (_process_file par0 "a.txt" (.generic "x" emptyMeta) (some mdC8) ⟨0⟩ none).getD []

def docC8e : Document := rC8e.headD default

/-- Two inner zip entries with no time metadata anywhere. -/
def zeA : String × FileContent × Metadata := ("docs/a.txt", .generic "aa" emptyMeta, emptyMeta)

def zeB : String × FileContent × Metadata := ("docs/b.txt", .generic "bb" emptyMeta, emptyMeta)

def rC10a : List Document := (processLocEntry par0 none ⟨7⟩ ⟨100⟩ zeA).getD []

def dC10a : Document := rC10a.headD default

def rC10b : List Document := (processLocEntry par0 none ⟨7⟩ ⟨200⟩ zeB).getD []

def dC10b : Document := rC10b.headD default

/-! ### Generic list and string lemmas -/

theorem data_append (s t : String) : (s ++ t).data = s.data ++ t.data := rfl

theorem dropWhile_head_not {α : Type} (p : α → Bool) :
    ∀ (l : List α) (c : α), (l.dropWhile p).head? = some c → p c = false := by
  intro l
  induction l with
  | nil => intro c h; simp [List.dropWhile] at h
  | cons a t ih =>
    intro c h
    rw [List.dropWhile_cons] at h
    by_cases hp : p a
    · rw [if_pos hp] at h
      exact ih c h
    · rw [if_neg hp] at h
      simp at h
      subst h
      exact Bool.eq_false_iff.mpr hp

theorem dropWhile_getLast?_eq {α : Type} (p : α → Bool) :
    ∀ (l : List α) (c : α), (l.dropWhile p).getLast? = some c → l.getLast? = some c := by
  intro l
  induction l with
  | nil => intro c h; simp [List.dropWhile] at h
  | cons a t ih =>
    intro c h
    rw [List.dropWhile_cons] at h
    by_cases hp : p a
    · rw [if_pos hp] at h
      have ht := ih c h
      cases t with
      | nil => simp at ht
      | cons b t' => rw [List.getLast?_cons_cons]; exact ht
    · rw [if_neg hp] at h
      exact h

theorem stripChars_head (l : List Char) (c : Char)
    (h : (stripChars l).head? = some c) : pyIsSpace c = false := by
  unfold stripChars at h
  rw [List.head?_reverse] at h
  have h2 := dropWhile_getLast?_eq pyIsSpace _ _ h
  rw [List.getLast?_reverse] at h2
  exact dropWhile_head_not pyIsSpace _ _ h2

theorem stripChars_getLast (l : List Char) (c : Char)
    (h : (stripChars l).getLast? = some c) : pyIsSpace c = false := by
  unfold stripChars at h
  rw [List.getLast?_reverse] at h
  exact dropWhile_head_not pyIsSpace _ _ h

theorem dropWhile_of_head_not {α : Type} (p : α → Bool) (l : List α) (x : α)
    (hx : l.head? = some x) (hxs : p x = false) : l.dropWhile p = l := by
  cases l with
  | nil => simp at hx
  | cons a t =>
    simp at hx
    rw [List.dropWhile_cons, hx, if_neg (by simp [hxs])]

/-- Stripping a string of the shape `space ++ a ++ b` where `a` starts and
ends with non-whitespace: the result keeps `a` as a prefix. -/
theorem stripChars_sandwich (a b : List Char) (c : Char) (hc : pyIsSpace c = true)
    (x y : Char) (hhd : a.head? = some x) (hxs : pyIsSpace x = false)
    (hlt : a.getLast? = some y) (hys : pyIsSpace y = false) :
    ∃ z, stripChars (c :: (a ++ b)) = a ++ z := by
  unfold stripChars
  rw [List.dropWhile_cons, if_pos hc]
  have hab : (a ++ b).head? = some x := by
    cases a with
    | nil => simp at hhd
    | cons u t => simp at hhd ⊢; exact hhd
  rw [dropWhile_of_head_not pyIsSpace (a ++ b) x hab hxs]
  rw [List.reverse_append, List.dropWhile_append]
  by_cases he : (b.reverse.dropWhile pyIsSpace).isEmpty
  · rw [if_pos he]
    have hra : a.reverse.head? = some y := by rw [List.head?_reverse]; exact hlt
    rw [dropWhile_of_head_not pyIsSpace a.reverse y hra hys, List.reverse_reverse]
    exact ⟨[], by simp⟩
  · rw [if_neg he]
    rw [List.reverse_append, List.reverse_reverse]
    exact ⟨(b.reverse.dropWhile pyIsSpace).reverse, rfl⟩

theorem emlParts_eq_filter (parts : List (String × String)) :
    emlParts parts = (parts.filter fun pr => strStartsWith pr.1 "text/plain").map Prod.snd := by
  induction parts with
  | nil => rfl
  | cons p rest ih =>
    cases p with
    | mk ct payload =>
      rw [emlParts, List.filter_cons]
      by_cases hp : strStartsWith ct "text/plain"
      · simp only [hp, if_pos, if_true, List.map_cons, ih]
      · simp only [hp, if_false, Bool.false_eq_true, ih]

/-! ### Destructuring the embedded pipeline -/

theorem mkDocument_some_iff {parse : String → Timestamp} {nm raw : String}
    {am : Metadata} {now : Timestamp} {d : Document} :
    mkDocument parse nm raw am now = some d ↔
    ∃ fin pO sO sem lnk,
      finalTimeUpdated parse am now = some fin ∧
      ownersOf (am "primary_owners") = some pO ∧
      ownersOf (am "secondary_owners") = some sO ∧
      semanticId am nm = some sem ∧
      linkOf (am "link") = some lnk ∧
      d = { id := "FILE_CONNECTOR__" ++ nm
            sections := [⟨lnk, pyStrip raw⟩]
            source := "file"
            semantic_identifier := sem
            doc_updated_at := fin
            primary_owners := pO
            secondary_owners := sO
            metadata := metadataTags am } := by
  constructor
  · intro h
    simp only [mkDocument, Option.bind_eq_some, Option.some.injEq] at h
    obtain ⟨fin, h1, pO, h2, sO, h3, sem, h4, lnk, h5, h6⟩ := h
    exact ⟨fin, pO, sO, sem, lnk, h1, h2, h3, h4, h5, h6.symm⟩
  · rintro ⟨fin, pO, sO, sem, lnk, h1, h2, h3, h4, h5, rfl⟩
    simp only [mkDocument, h1, h2, h3, h4, h5, Option.some_bind]

theorem process_file_some_mem {parse : String → Timestamp} {nm : String}
    {c : FileContent} {md : Option Metadata} {now : Timestamp} {pp : Option String}
    {r : List Document} {d : Document}
    (h : _process_file parse nm c md now pp = some r) (hd : d ∈ r) :
    check_file_ext_is_valid (get_file_ext nm) = true ∧
    ∃ raw fm, extractByExt (get_file_ext nm) pp c = some (raw, fm) ∧
      mkDocument parse nm raw (allMetadataOf md fm) now = some d ∧ r = [d] := by
  simp only [_process_file] at h
  by_cases hv : check_file_ext_is_valid (get_file_ext nm)
  · simp only [hv, Bool.not_true, Bool.false_eq_true, if_false] at h
    cases hex : extractByExt (get_file_ext nm) pp c with
    | none => rw [hex] at h; simp at h
    | some rf =>
      cases rf with
      | mk raw fm =>
        rw [hex] at h
        simp only [Option.map_eq_some'] at h
        obtain ⟨doc, hdoc, hr⟩ := h
        subst hr
        rw [List.mem_singleton] at hd
        subst hd
        exact ⟨hv, raw, fm, rfl, hdoc, rfl⟩
  · rw [Bool.not_eq_true] at hv
    simp only [hv, Bool.not_false, if_true, Option.some.injEq] at h
    subst h
    simp at hd

/-- `_process_file` never produces more than one document per entry. -/
theorem process_file_length_le_one {parse : String → Timestamp} {nm : String}
    {c : FileContent} {md : Option Metadata} {now : Timestamp} {pp : Option String}
    {r : List Document} (h : _process_file parse nm c md now pp = some r) :
    r.length ≤ 1 := by
  simp only [_process_file] at h
  by_cases hv : check_file_ext_is_valid (get_file_ext nm)
  · simp only [hv, Bool.not_true, Bool.false_eq_true, if_false] at h
    cases hex : extractByExt (get_file_ext nm) pp c with
    | none => rw [hex] at h; simp at h
    | some rf =>
      rw [hex] at h
      simp only [Option.map_eq_some'] at h
      obtain ⟨doc, _, hr⟩ := h
      subst hr
      simp
  · rw [Bool.not_eq_true] at hv
    simp only [hv, Bool.not_false, if_true, Option.some.injEq] at h
    subst h
    simp

/-! ### Batching lemmas -/

theorem div_helper_zero (B : Nat) (hB : 1 ≤ B) : (B - 1) / B = 0 :=
  Nat.div_eq_of_lt (by omega)

theorem div_helper_one (B r : Nat) (h1 : 1 ≤ r) (h2 : r ≤ B) : (r + B - 1) / B = 1 := by
  rw [show r + B - 1 = (r - 1) + B by omega, Nat.add_div_right _ (by omega),
    Nat.div_eq_of_lt (by omega)]

theorem div_helper_step (B n : Nat) (hB : 1 ≤ B) :
    (B + n + B - 1) / B = 1 + (n + B - 1) / B := by
  rw [show B + n + B - 1 = (n + B - 1) + B by omega, Nat.add_div_right _ (by omega)]
  omega

/-- Behaviour of the batching loop when every step adds at most one document
(as `_process_file` guarantees): full flush of the produced documents in
order, every batch but the last of size exactly `B`, no empty batch, no
oversized batch, and exactly `⌈total/B⌉` batches. -/
theorem emitAll_spec (B : Nat) (hB : 1 ≤ B) :
    ∀ (dss : List (List Document)) (pending : List Document),
      pending.length < B → (∀ ds ∈ dss, ds.length ≤ 1) →
      (emitAll B pending dss).flatten = pending ++ dss.flatten ∧
      (∀ b ∈ (emitAll B pending dss).dropLast, b.length = B) ∧
      (∀ b ∈ emitAll B pending dss, 1 ≤ b.length ∧ b.length ≤ B) ∧
      (emitAll B pending dss).length = (pending.length + dss.flatten.length + B - 1) / B := by
  intro dss
  induction dss with
  | nil =>
    intro pending hp _
    by_cases he : pending.isEmpty
    · have hpe : pending = [] := List.isEmpty_iff.mp he
      subst hpe
      have hE : emitAll B ([] : List Document) [] = [] := rfl
      rw [hE]
      refine ⟨by simp, by simp, by simp, ?_⟩
      simp only [List.length_nil, List.flatten_nil, Nat.zero_add]
      exact (div_helper_zero B hB).symm
    · have hpe : pending ≠ [] := fun hh => he (by simp [hh])
      simp only [emitAll]
      rw [if_neg he]
      refine ⟨by simp, by simp, ?_, ?_⟩
      · intro b hb
        rw [List.mem_singleton] at hb
        subst hb
        have : 0 < b.length := List.length_pos.mpr hpe
        omega
      · simp only [List.length_singleton, List.flatten_nil, List.length_nil, Nat.add_zero]
        exact (div_helper_one B pending.length (by
          have : 0 < pending.length := List.length_pos.mpr hpe
          omega) (by omega)).symm
  | cons ds rest ih =>
    intro pending hp hds
    have hds' : ∀ x ∈ rest, x.length ≤ 1 := fun x hx => hds x (List.mem_cons_of_mem _ hx)
    have hd1 : ds.length ≤ 1 := hds ds (List.mem_cons_self _ _)
    simp only [emitAll]
    by_cases hflush : B ≤ (pending ++ ds).length
    · have hlen : (pending ++ ds).length = B := by
        rw [List.length_append] at hflush ⊢
        omega
      rw [if_pos hflush]
      have IH := ih [] (by simpa using hB) hds'
      obtain ⟨IH1, IH2, IH3, IH4⟩ := IH
      refine ⟨?_, ?_, ?_, ?_⟩
      · rw [List.flatten_cons, IH1]
        simp
      · intro b hb
        cases he' : emitAll B [] rest with
        | nil => rw [he'] at hb; simp at hb
        | cons x xs =>
          rw [he', List.dropLast_cons₂] at hb
          rcases List.mem_cons.mp hb with hb1 | hb2
          · rw [hb1]; exact hlen
          · rw [he'] at IH2; exact IH2 b hb2
      · intro b hb
        rcases List.mem_cons.mp hb with hb1 | hb2
        · rw [hb1, hlen]; omega
        · exact IH3 b hb2
      · rw [List.length_cons, IH4]
        simp only [List.flatten_cons, List.length_nil, List.length_append, Nat.zero_add]
        rw [show pending.length + (ds.length + rest.flatten.length) + B - 1
              = B + rest.flatten.length + B - 1 by
            rw [List.length_append] at hlen; omega,
          div_helper_step B rest.flatten.length hB]
        omega
    · rw [if_neg hflush]
      have hlt : (pending ++ ds).length < B := by omega
      have IH := ih (pending ++ ds) hlt hds'
      obtain ⟨IH1, IH2, IH3, IH4⟩ := IH
      refine ⟨?_, IH2, IH3, ?_⟩
      · rw [IH1]
        simp
      · rw [IH4, List.length_append, List.flatten_cons, List.length_append]
        congr 1
        omega

theorem entryDocLists_lengths {parse : String → Timestamp} {pp : Option String}
    {current : Timestamp} {entryClock : Nat → Timestamp} :
    ∀ {es : List (String × FileContent × Metadata)} {k : Nat}
      {dss : List (List Document)},
      entryDocLists parse pp current entryClock k es = some dss →
      ∀ ds ∈ dss, ds.length ≤ 1 := by
  intro es
  induction es with
  | nil =>
    intro k dss h
    simp only [entryDocLists, Option.some.injEq] at h
    subst h
    simp
  | cons e es ih =>
    intro k dss h
    simp only [entryDocLists, Option.bind_eq_some, Option.some.injEq] at h
    obtain ⟨ds, hds, rest, hrest, hcons⟩ := h
    subst hcons
    intro x hx
    rcases List.mem_cons.mp hx with hx1 | hx2
    · subst hx1
      exact process_file_length_le_one hds
    · exact ih hrest x hx2

theorem runEntryLists_lengths {parse : String → Timestamp} {pp : Option String}
    {locClock entryClock : Nat → Timestamp} :
    ∀ {locs : List Location} {i k : Nat} {dss : List (List Document)},
      runEntryLists parse pp locClock entryClock locs i k = some dss →
      ∀ ds ∈ dss, ds.length ≤ 1 := by
  intro locs
  induction locs with
  | nil =>
    intro i k dss h
    simp only [runEntryLists, Option.some.injEq] at h
    subst h
    simp
  | cons loc rest ih =>
    intro i k dss h
    simp only [runEntryLists, Option.bind_eq_some, Option.some.injEq] at h
    obtain ⟨es, _, dss1, hdss1, more, hmore, happ⟩ := h
    subst happ
    intro x hx
    rcases List.mem_append.mp hx with hx1 | hx2
    · exact entryDocLists_lengths hdss1 x hx1
    · exact ih hmore x hx2

/-! ### The claims -/

/-- C1 counterexample: the claim fails when the merged metadata contains
`doc_updated_at` as the *empty* string.  The empty string is falsy in
Python, so the code falls back to `time_updated` (here `5`) instead of the
parsed value of the string (`par0 "" = 0`). -/
theorem c1_cex :
    (Option.map (List.map Document.doc_updated_at)
      (_process_file par0 "a.txt" (.generic "x" emptyMeta) (some mdC1) ⟨9⟩ none))
      = some [⟨5⟩] ∧ par0 "" ≠ (⟨5⟩ : Timestamp) := by
  constructor
  · rfl
  · decide

/-- C1 (amended): if the merged metadata contains `doc_updated_at` as a
*nonempty* string `s`, the produced document's `updated_at` is the parsed
value of `s`, regardless of any `time_updated` value (no hypothesis
constrains `time_updated`). -/
theorem c1_doc_updated_at_precedence (parse : String → Timestamp)
    (file_name : String) (content : FileContent) (md : Option Metadata)
    (now : Timestamp) (pp : Option String) (raw : String) (fm : Metadata)
    (s : String) (r : List Document) (d : Document)
    (hex : extractByExt (get_file_ext file_name) pp content = some (raw, fm))
    (hdoc : allMetadataOf md fm "doc_updated_at" = some (.str s))
    (hs : s ≠ "")
    (h : _process_file parse file_name content md now pp = some r) (hd : d ∈ r) :
    d.doc_updated_at = parse s := by
  obtain ⟨hv, raw', fm', hex', hmk, hr⟩ := process_file_some_mem h hd
  have hef : raw = raw' ∧ fm = fm' := by
    have h2 := hex.symm.trans hex'
    simpa using h2
  obtain ⟨hraw, hfm⟩ := hef
  subst hraw
  subst hfm
  rw [mkDocument_some_iff] at hmk
  obtain ⟨fin, pO, sO, sem, lnk, h1, _, _, _, _, hdd⟩ := hmk
  subst hdd
  simp only [finalTimeUpdated, hdoc] at h1
  rw [if_neg hs] at h1
  simpa using h1.symm

theorem c1_witness : docC1.doc_updated_at = par0 "2020" := by
  have hm : docC1 ∈ rC1 := by
    have h : rC1 = [docC1] := rfl
    rw [h]
    exact List.mem_singleton_self docC1
  exact c1_doc_updated_at_precedence par0 "a.txt" (.generic "x" emptyMeta) (some mdC1w)
    ⟨9⟩ none "x" emptyMeta "2020" rC1 docC1 rfl rfl (by decide) rfl hm

/-- C2: when caller metadata and extractor metadata both define the same
key, the merged bag and (for a non-reserved key) the produced document's
tag dict carry the extractor's value. -/
theorem c2_extractor_precedence (parse : String → Timestamp)
    (file_name : String) (content : FileContent) (m : Metadata)
    (now : Timestamp) (pp : Option String) (raw : String) (fm : Metadata)
    (k : String) (vc ve : MVal)
    (hex : extractByExt (get_file_ext file_name) pp content = some (raw, fm))
    (hc : m k = some vc) (he : fm k = some ve) :
    allMetadataOf (some m) fm k = some ve ∧
    ∀ r d, _process_file parse file_name content (some m) now pp = some r → d ∈ r →
      k ∉ reservedKeys → d.metadata k = some ve := by
  constructor
  · simp [allMetadataOf, dictMerge, he]
  · intro r d h hd hk
    obtain ⟨hv, raw', fm', hex', hmk, hr⟩ := process_file_some_mem h hd
    have hef : raw = raw' ∧ fm = fm' := by
      have h2 := hex.symm.trans hex'
      simpa using h2
    obtain ⟨hraw, hfm⟩ := hef
    subst hraw
    subst hfm
    rw [mkDocument_some_iff] at hmk
    obtain ⟨fin, pO, sO, sem, lnk, _, _, _, _, _, hdd⟩ := hmk
    subst hdd
    simp [metadataTags, hk, allMetadataOf, dictMerge, he]

theorem c2_witness :
    allMetadataOf (some mdC2) fmC2 "color" = some (.str "blue") ∧
    docC2.metadata "color" = some (.str "blue") := by
  have T := c2_extractor_precedence par0 "a.txt" (.generic "x" fmC2) mdC2 ⟨0⟩ none
    "x" fmC2 "color" (.str "red") (.str "blue") rfl rfl rfl
  have hm : docC2 ∈ rC2 := by
    have h : rC2 = [docC2] := rfl
    rw [h]
    exact List.mem_singleton_self docC2
  exact ⟨T.1, T.2 rC2 docC2 rfl hm (by decide)⟩

/-- C3: a successful run with `batch_size = B ≥ 1` yields exactly
`⌈N/B⌉` batches for `N` total produced documents, every batch except
possibly the last has exactly `B` documents, and every batch (the last
included) has between `1` and `B` documents — in particular no empty batch
is ever emitted. -/
theorem c3_batch_boundaries (parse : String → Timestamp) (pp : Option String)
    (locClock entryClock : Nat → Timestamp) (locs : List Location) (B : Nat)
    (batches : List (List Document)) (hB : 1 ≤ B)
    (h : load_from_state parse pp locClock entryClock locs B = some batches) :
    batches.length = (batches.flatten.length + B - 1) / B ∧
    (∀ b ∈ batches.dropLast, b.length = B) ∧
    ∀ b ∈ batches, 1 ≤ b.length ∧ b.length ≤ B := by
  simp only [load_from_state, Option.map_eq_some'] at h
  obtain ⟨dss, hrun, hb⟩ := h
  subst hb
  have hlens := runEntryLists_lengths hrun
  have HS := emitAll_spec B hB dss [] (by simpa using hB) hlens
  obtain ⟨H1, H2, H3, H4⟩ := HS
  refine ⟨?_, H2, H3⟩
  rw [H4, H1]
  simp

theorem c3_witness : out3.length = (out3.flatten.length + 1 - 1) / 1 :=
  (c3_batch_boundaries par0 none clk0 clk0 [locA, locB] 1 out3 (by decide) rfl).1

/-- C4: an entry whose classified extension is outside the supported set
produces zero documents and no error, both at the `_process_file` gate
(standalone files and zip inner entries alike) and at the
`_read_files_and_metadata` gate for standalone files (for any stored blob);
other entries are unaffected since the result is `some []`, not a failure. -/
theorem c4_unsupported_skip (parse : String → Timestamp) (file_name : String)
    (content : FileContent) (md : Option Metadata) (now : Timestamp)
    (pp : Option String)
    (h : check_file_ext_is_valid (get_file_ext file_name) = false) :
    _process_file parse file_name content md now pp = some [] ∧
    (get_file_ext file_name ≠ ".zip" →
      ∀ blob, _read_files_and_metadata ⟨file_name, blob⟩ = some []) := by
  constructor
  · simp [_process_file, h]
  · intro hz blob
    have hmem : ¬ (get_file_ext file_name ∈
        [".txt", ".md", ".mdx", ".pdf", ".docx", ".pptx", ".xlsx",
         ".csv", ".eml", ".epub"]) := of_decide_eq_false h
    simp [_read_files_and_metadata, hz, hmem]

theorem c4_witness :
    _process_file par0 "virus.exe" (.generic "x" emptyMeta) none ⟨0⟩ none = some [] ∧
    _read_files_and_metadata ⟨"virus.exe", .content (.generic "x" emptyMeta)⟩ = some [] := by
  have T := c4_unsupported_skip par0 "virus.exe" (.generic "x" emptyMeta) none ⟨0⟩ none
    (by decide)
  exact ⟨T.1, T.2 (by decide) _⟩

/-- C5: every produced document's `id` is the string `"FILE_CONNECTOR__"`
followed by the resolved file name, so any two runs over the same file name
— whatever their bytes, metadata, parser, or clock — produce documents with
identical `id`. -/
theorem c5_deterministic_id (parse : String → Timestamp) (file_name : String)
    (content : FileContent) (md : Option Metadata) (now : Timestamp)
    (pp : Option String) (r : List Document) (d : Document)
    (h : _process_file parse file_name content md now pp = some r) (hd : d ∈ r) :
    d.id = "FILE_CONNECTOR__" ++ file_name ∧
    ∀ parse2 content2 md2 now2 pp2 r2 d2,
      _process_file parse2 file_name content2 md2 now2 pp2 = some r2 → d2 ∈ r2 →
      d2.id = d.id := by
  have hid : ∀ (pa : String → Timestamp) (co : FileContent) (me : Option Metadata)
      (no : Timestamp) (pw : Option String) (rr : List Document) (dd : Document),
      _process_file pa file_name co me no pw = some rr → dd ∈ rr →
      dd.id = "FILE_CONNECTOR__" ++ file_name := by
    intro pa co me no pw rr dd hh hdd
    obtain ⟨_, raw, fm, _, hmk, _⟩ := process_file_some_mem hh hdd
    rw [mkDocument_some_iff] at hmk
    obtain ⟨fin, pO, sO, sem, lnk, _, _, _, _, _, hdd2⟩ := hmk
    rw [hdd2]
  have h1 := hid parse content md now pp r d h hd
  refine ⟨h1, ?_⟩
  intro parse2 content2 md2 now2 pp2 r2 d2 h2 hd2
  rw [hid parse2 content2 md2 now2 pp2 r2 d2 h2 hd2, h1]

theorem c5_witness :
    docC5.id = "FILE_CONNECTOR__a.txt" ∧ docC5b.id = docC5.id := by
  have hm : docC5 ∈ rC5 := by
    have h : rC5 = [docC5] := rfl
    rw [h]
    exact List.mem_singleton_self docC5
  have T := c5_deterministic_id par0 "a.txt" (.generic "x" emptyMeta) none ⟨0⟩ none
    rC5 docC5 rfl hm
  have hm2 : docC5b ∈ rC5b := by
    have h : rC5b = [docC5b] := rfl
    rw [h]
    exact List.mem_singleton_self docC5b
  exact ⟨T.1, T.2 (fun _ => ⟨42⟩) (.generic "other bytes" fmC2) (some mdC2) ⟨3⟩
    (some "pw") rC5b docC5b rfl hm2⟩

/-- C6: every produced Section's text is `file_content_raw.strip()`, so it
never begins or ends with a whitespace character, for every format and
every input. -/
theorem c6_sections_stripped (parse : String → Timestamp) (file_name : String)
    (content : FileContent) (md : Option Metadata) (now : Timestamp)
    (pp : Option String) (r : List Document) (d : Document) (s : Section)
    (h : _process_file parse file_name content md now pp = some r) (hd : d ∈ r)
    (hs : s ∈ d.sections) :
    (∀ ch, s.text.data.head? = some ch → pyIsSpace ch = false) ∧
    (∀ ch, s.text.data.getLast? = some ch → pyIsSpace ch = false) := by
  obtain ⟨_, raw, fm, _, hmk, _⟩ := process_file_some_mem h hd
  rw [mkDocument_some_iff] at hmk
  obtain ⟨fin, pO, sO, sem, lnk, _, _, _, _, _, hdd⟩ := hmk
  subst hdd
  simp only [List.mem_singleton] at hs
  subst hs
  constructor
  · intro ch hch
    exact stripChars_head raw.data ch hch
  · intro ch hch
    exact stripChars_getLast raw.data ch hch

theorem c6_witness : pyIsSpace 'h' = false ∧ pyIsSpace 'i' = false := by
  have hm : docC6 ∈ rC6 := by
    have h : rC6 = [docC6] := rfl
    rw [h]
    exact List.mem_singleton_self docC6
  have hsec : secC6 ∈ docC6.sections := by
    have h : docC6.sections = [secC6] := rfl
    rw [h]
    exact List.mem_singleton_self secC6
  have T := c6_sections_stripped par0 "a.txt" (.generic "  hi \n" emptyMeta) none ⟨0⟩
    none rC6 docC6 secC6 rfl hm hsec
  exact ⟨T.1 'h' rfl, T.2 'i' rfl⟩

/-- C7 counterexample: the code keeps every part whose content type merely
STARTS WITH `"text/plain"` (`startswith`), so a part typed
`"text/plainx"` contributes its payload, while the claim (exact equality
with `"text/plain"`) says it contributes nothing. -/
theorem c7_cex :
    (Option.map Prod.fst (extractByExt ".eml" none (.eml [("text/plainx", "SECRET")])))
      = some "SECRET" ∧
    "SECRET" ≠ String.intercalate "\n\n"
      (([("text/plainx", "SECRET")].filter fun pr : String × String =>
          pr.1 == "text/plain").map Prod.snd) := by
  constructor
  · rfl
  · decide

/-- C7 (amended): the extracted text of an `.eml` entry is the
concatenation, joined by a blank line, of the payloads of exactly those
walked parts whose content type STARTS WITH `text/plain`. -/
theorem c7_eml_startswith (pp : Option String) (parts : List (String × String))
    (raw : String) (fm : Metadata)
    (h : extractByExt ".eml" pp (.eml parts) = some (raw, fm)) :
    raw = String.intercalate "\n\n"
      ((parts.filter fun pr => strStartsWith pr.1 "text/plain").map Prod.snd) := by
  simp only [extractByExt] at h
  simp at h
  rw [← h.1, emlParts_eq_filter]

theorem c7_witness :
    ("P1\n\nP2" : String) = String.intercalate "\n\n"
      ((partsC7.filter fun pr => strStartsWith pr.1 "text/plain").map Prod.snd) :=
  c7_eml_startswith none partsC7 "P1\n\nP2" emptyMeta rfl

/-- C8 counterexample: a caller-supplied `primary_owners` equal to the
empty list is falsy in Python, so the code produces `None` — identical to
the absent-key output and different from the wrapped empty list `some []`
the claim requires for a supplied list. -/
theorem c8_cex :
    (Option.map (List.map Document.primary_owners)
      (_process_file par0 "a.txt" (.generic "x" emptyMeta) (some mdC8) ⟨0⟩ none))
      = some [none] ∧
    (none : Option (List BasicExpertInfo)) ≠ some [] := by
  constructor
  · rfl
  · decide

/-- C8 (amended): if the merged metadata supplies a NON-EMPTY
`primary_owners` (resp. `secondary_owners`) list of names, the document's
owner field is that list with each name wrapped; if the key is absent OR the
supplied list is empty, the field is `None` — an empty supplied list is
therefore NOT distinguishable from an absent key. -/
theorem c8_owner_wrapping (parse : String → Timestamp) (file_name : String)
    (content : FileContent) (md : Option Metadata) (now : Timestamp)
    (pp : Option String) (raw : String) (fm : Metadata)
    (hex : extractByExt (get_file_ext file_name) pp content = some (raw, fm))
    (r : List Document) (d : Document)
    (h : _process_file parse file_name content md now pp = some r) (hd : d ∈ r) :
    (∀ ns, allMetadataOf md fm "primary_owners" = some (.strList ns) → ns ≠ [] →
      d.primary_owners = some (ns.map fun n => ⟨n⟩)) ∧
    (allMetadataOf md fm "primary_owners" = none → d.primary_owners = none) ∧
    (allMetadataOf md fm "primary_owners" = some (.strList []) →
      d.primary_owners = none) ∧
    (∀ ns, allMetadataOf md fm "secondary_owners" = some (.strList ns) → ns ≠ [] →
      d.secondary_owners = some (ns.map fun n => ⟨n⟩)) ∧
    (allMetadataOf md fm "secondary_owners" = none → d.secondary_owners = none) ∧
    (allMetadataOf md fm "secondary_owners" = some (.strList []) →
      d.secondary_owners = none) := by
  obtain ⟨_, raw', fm', hex', hmk, _⟩ := process_file_some_mem h hd
  have hef : raw = raw' ∧ fm = fm' := by simpa using hex.symm.trans hex'
  obtain ⟨hr1, hr2⟩ := hef
  subst hr1
  subst hr2
  rw [mkDocument_some_iff] at hmk
  obtain ⟨fin, pO, sO, sem, lnk, _, h2, h3, _, _, hdd⟩ := hmk
  subst hdd
  refine ⟨?_, ?_, ?_, ?_, ?_, ?_⟩
  · intro ns hns hne
    rw [hns] at h2
    simp only [ownersOf, if_neg hne] at h2
    simpa using h2.symm
  · intro hns
    rw [hns] at h2
    simpa [ownersOf] using h2.symm
  · intro hns
    rw [hns] at h2
    simp only [ownersOf, if_pos rfl] at h2
    simpa using h2.symm
  · intro ns hns hne
    rw [hns] at h3
    simp only [ownersOf, if_neg hne] at h3
    simpa using h3.symm
  · intro hns
    rw [hns] at h3
    simpa [ownersOf] using h3.symm
  · intro hns
    rw [hns] at h3
    simp only [ownersOf, if_pos rfl] at h3
    simpa using h3.symm

theorem c8_witness :
    docC8.primary_owners = some [⟨"ann"⟩, ⟨"bo"⟩] ∧ docC8e.primary_owners = none := by
  have hm : docC8 ∈ rC8 := by
    have h : rC8 = [docC8] := rfl
    rw [h]
    exact List.mem_singleton_self docC8
  have T := c8_owner_wrapping par0 "a.txt" (.generic "x" emptyMeta) (some mdC8w) ⟨0⟩
    none "x" emptyMeta rfl rC8 docC8 rfl hm
  have hm2 : docC8e ∈ rC8e := by
    have h : rC8e = [docC8e] := rfl
    rw [h]
    exact List.mem_singleton_self docC8e
  have T2 := c8_owner_wrapping par0 "a.txt" (.generic "x" emptyMeta) (some mdC8) ⟨0⟩
    none "x" emptyMeta rfl rC8e docC8e rfl hm2
  exact ⟨T.1 ["ann", "bo"] rfl (by decide), T2.2.2.1 rfl⟩

/-- `listIsPref` holds of a list and any extension of it. -/
theorem listIsPref_append (a z : List Char) : listIsPref a (a ++ z) = true := by
  induction a with
  | nil => rfl
  | cons c t ih => simp [listIsPref, ih]

/-- C9 counterexample: with two slides, the first containing one shape with
text `"Hello"`, the Section text does NOT start with the claimed pattern
`"\nSlide 1:\nHello\n\n\nSlide 2:\n"`: the leading newline is removed by
`.strip()` and four (not three) newlines separate `"Hello"` from
`"Slide 2:"` (shape newline + `"\n\n"` join + slide-header newline). -/
theorem c9_cex :
    (Option.map (List.map fun d => d.sections.map fun s =>
        strStartsWith s.text "\nSlide 1:\nHello\n\n\nSlide 2:\n")
      (_process_file par0 "deck.pptx" (.pptx [[some "Hello"], [some "World"]]) none
        ⟨0⟩ none)) = some [[false]] ∧
    (Option.map (List.map fun d => d.sections.map Section.text)
      (_process_file par0 "deck.pptx" (.pptx [[some "Hello"], [some "World"]]) none
        ⟨0⟩ none)) = some [["Slide 1:\nHello\n\n\n\nSlide 2:\nWorld"]] := by
  constructor
  · decide
  · decide

/-- C9 (amended): for a `.pptx` with two slides whose first slide contains
one shape with text `"Hello"`, the produced Section text starts with
`"Slide 1:\nHello\n\n\n\nSlide 2:"` — the slide-header pattern survives,
but the leading newline is stripped and FOUR newlines separate the slides'
blocks. -/
theorem c9_pptx_two_slides (parse : String → Timestamp) (now : Timestamp)
    (pp : Option String) (shapes2 : List (Option String)) :
    ∃ d, _process_file parse "deck.pptx" (.pptx [[some "Hello"], shapes2]) none now pp
        = some [d] ∧
      d.sections.map (fun s => strStartsWith s.text "Slide 1:\nHello\n\n\n\nSlide 2:")
        = [true] := by
  refine ⟨{ id := "FILE_CONNECTOR__deck.pptx"
            sections := [⟨none, pyStrip (String.intercalate "\n\n"
              (pptxSlides [[some "Hello"], shapes2]))⟩]
            source := "file"
            semantic_identifier := "deck.pptx"
            doc_updated_at := now
            primary_owners := none
            secondary_owners := none
            metadata := metadataTags emptyMeta }, rfl, ?_⟩
  have hdata : (String.intercalate "\n\n" (pptxSlides [[some "Hello"], shapes2])).data
      = '\n' :: (("Slide 1:\nHello\n\n\n\nSlide 2:" : String).data
          ++ ('\n' :: (shapesText shapes2).data)) := by
    have e0 : pptxSlides [[some "Hello"], shapes2]
        = [("\nSlide " ++ toString (0 + 1) ++ ":\n" ++ shapesText [some "Hello"]),
           ("\nSlide " ++ toString (1 + 1) ++ ":\n" ++ shapesText shapes2)] := rfl
    have e1 : ("\nSlide " ++ toString (0 + 1) ++ ":\n" ++ shapesText [some "Hello"])
        = "\nSlide 1:\nHello\n" := rfl
    have e2 : ("\nSlide " ++ toString (1 + 1) ++ ":\n" ++ shapesText shapes2)
        = "\nSlide 2:\n" ++ shapesText shapes2 := rfl
    rw [e0, e1, e2]
    have e3 : String.intercalate "\n\n"
          ["\nSlide 1:\nHello\n", "\nSlide 2:\n" ++ shapesText shapes2]
        = "\nSlide 1:\nHello\n" ++ "\n\n" ++ ("\nSlide 2:\n" ++ shapesText shapes2) := rfl
    rw [e3]
    rfl
  obtain ⟨z, hz⟩ := stripChars_sandwich
    (("Slide 1:\nHello\n\n\n\nSlide 2:" : String).data)
    ('\n' :: (shapesText shapes2).data) '\n' (by decide) 'S' ':'
    (by decide) (by decide) (by decide) (by decide)
  simp only [List.map_cons, List.map_nil, List.cons.injEq, and_true]
  show listIsPref _ (pyStrip _).data = true
  show listIsPref _ (stripChars (String.intercalate "\n\n"
    (pptxSlides [[some "Hello"], shapes2])).data) = true
  rw [hdata, hz]
  exact listIsPref_append _ z

/-- Helper for C10: inside `load_from_state`, any entry whose caller and
extractor metadata both lack `time_updated` and `doc_updated_at` gets
`updated_at = current` (the location-start instant), whatever the per-entry
instant `t` would be. -/
theorem processLocEntry_updated_at (parse : String → Timestamp) (pp : Option String)
    (current t : Timestamp) (e : String × FileContent × Metadata)
    (raw : String) (fm : Metadata)
    (hex : extractByExt (get_file_ext e.1) pp e.2.1 = some (raw, fm))
    (hmt : e.2.2 "time_updated" = none) (hmd : e.2.2 "doc_updated_at" = none)
    (hft : fm "time_updated" = none) (hfd : fm "doc_updated_at" = none)
    (r : List Document) (d : Document)
    (h : processLocEntry parse pp current t e = some r) (hd : d ∈ r) :
    d.doc_updated_at = current := by
  unfold processLocEntry at h
  obtain ⟨_, raw', fm', hex', hmk, _⟩ := process_file_some_mem h hd
  have hef : raw = raw' ∧ fm = fm' := by simpa using hex.symm.trans hex'
  obtain ⟨hr1, hr2⟩ := hef
  subst hr1
  subst hr2
  rw [mkDocument_some_iff] at hmk
  obtain ⟨fin, pO, sO, sem, lnk, hfin, _, _, _, _, hdd⟩ := hmk
  subst hdd
  have hdua : allMetadataOf (some (injectTime e.2.2 current)) fm "doc_updated_at"
      = none := by
    simp [allMetadataOf, dictMerge, hfd, injectTime, hmd]
  have htu : allMetadataOf (some (injectTime e.2.2 current)) fm "time_updated"
      = some (.time current) := by
    simp [allMetadataOf, dictMerge, hft, injectTime, hmt]
  simp only [finalTimeUpdated, hdua, timeUpdatedVal, htu, asTime] at hfin
  simpa using hfin.symm

/-- C10: two entries processed under the same location (e.g. two inner zip
entries) for which neither caller nor extractor metadata supplies
`time_updated` or `doc_updated_at` carry the identical `updated_at`: the
location-start instant `current` injected by `load_from_state`, not the
per-entry instants `t₁`, `t₂` (which are arbitrary and unequal here). -/
theorem c10_location_instant_shared (parse : String → Timestamp)
    (pp : Option String) (current t₁ t₂ : Timestamp)
    (e₁ e₂ : String × FileContent × Metadata)
    (raw₁ raw₂ : String) (fm₁ fm₂ : Metadata)
    (hex₁ : extractByExt (get_file_ext e₁.1) pp e₁.2.1 = some (raw₁, fm₁))
    (hex₂ : extractByExt (get_file_ext e₂.1) pp e₂.2.1 = some (raw₂, fm₂))
    (hmt₁ : e₁.2.2 "time_updated" = none) (hmd₁ : e₁.2.2 "doc_updated_at" = none)
    (hft₁ : fm₁ "time_updated" = none) (hfd₁ : fm₁ "doc_updated_at" = none)
    (hmt₂ : e₂.2.2 "time_updated" = none) (hmd₂ : e₂.2.2 "doc_updated_at" = none)
    (hft₂ : fm₂ "time_updated" = none) (hfd₂ : fm₂ "doc_updated_at" = none)
    (r₁ r₂ : List Document) (d₁ d₂ : Document)
    (h₁ : processLocEntry parse pp current t₁ e₁ = some r₁) (hd₁ : d₁ ∈ r₁)
    (h₂ : processLocEntry parse pp current t₂ e₂ = some r₂) (hd₂ : d₂ ∈ r₂) :
    d₁.doc_updated_at = current ∧ d₂.doc_updated_at = current ∧
    d₁.doc_updated_at = d₂.doc_updated_at := by
  have A := processLocEntry_updated_at parse pp current t₁ e₁ raw₁ fm₁ hex₁ hmt₁ hmd₁
    hft₁ hfd₁ r₁ d₁ h₁ hd₁
  have B := processLocEntry_updated_at parse pp current t₂ e₂ raw₂ fm₂ hex₂ hmt₂ hmd₂
    hft₂ hfd₂ r₂ d₂ h₂ hd₂
  exact ⟨A, B, A.trans B.symm⟩

theorem c10_witness :
    dC10a.doc_updated_at = (⟨7⟩ : Timestamp) ∧
    dC10b.doc_updated_at = (⟨7⟩ : Timestamp) ∧
    dC10a.doc_updated_at = dC10b.doc_updated_at := by
  have hma : dC10a ∈ rC10a := by
    have h : rC10a = [dC10a] := rfl
    rw [h]
    exact List.mem_singleton_self dC10a
  have hmb : dC10b ∈ rC10b := by
    have h : rC10b = [dC10b] := rfl
    rw [h]
    exact List.mem_singleton_self dC10b
  exact c10_location_instant_shared par0 none ⟨7⟩ ⟨100⟩ ⟨200⟩ zeA zeB "aa" "bb"
    emptyMeta emptyMeta rfl rfl rfl rfl rfl rfl rfl rfl rfl rfl
    rC10a rC10b dC10a dC10b rfl hma rfl hmb

end Danswer
